import Mathlib

/-!
Verification of the Block Blast solver core (block_blast_solver).

The Python modules `utils.py`, `block_shapes.py` and `solver.py` are embedded
shallowly: an 8×8 numpy boolean grid becomes `Grid := Fin 8 → Fin 8 → Bool`,
piece cells and anchors are integer pairs, and the float scores of the
evaluator are represented exactly as rationals (every quantity the evaluator
computes is a small dyadic-free rational and the single float comparison in
`count_holes` compares ratios that are never within rounding distance of 1/2,
so rational arithmetic agrees with the Python float arithmetic on all
reachable values).
-/

namespace BlockBlast

/-- GRID_SIZE from config.py. -/
def GRID_SIZE : ℕ := 8

/-- An 8×8 occupancy grid (numpy bool array, `grid[r, c]`). -/
def Grid : Type := Fin 8 → Fin 8 → Bool

instance : DecidableEq Grid := by unfold Grid; infer_instance

/-- Bounds test `0 <= r < GRID_SIZE and 0 <= c < GRID_SIZE` from
`can_place_piece` in utils.py. -/
def inBounds (r c : ℤ) : Bool :=
  decide (0 ≤ r) && decide (r < 8) && decide (0 ≤ c) && decide (c < 8)

/-- Reading `grid[r, c]` at integer indices; out-of-bounds reads yield
`false` (the solver only reads in-bounds cells, guarded by `inBounds`). -/
def cellAt (g : Grid) (r c : ℤ) : Bool :=
  if h : 0 ≤ r ∧ r < 8 ∧ 0 ≤ c ∧ c < 8 then
    g ⟨r.toNat, by omega⟩ ⟨c.toNat, by omega⟩
  else
    false

/-- `can_place_piece(grid, piece_cells, position)` from utils.py: every
absolute cell `position + offset` must be in bounds and unoccupied. -/
def canPlace (g : Grid) (cells : List (ℤ × ℤ)) (pos : ℤ × ℤ) : Bool :=
  cells.all fun d =>
    inBounds (pos.1 + d.1) (pos.2 + d.2) && !cellAt g (pos.1 + d.1) (pos.2 + d.2)

/-- The 64 anchors scanned by the solver, row-major:
`for row in range(8): for col in range(8)`. -/
def allAnchors : List (ℤ × ℤ) :=
  (List.range 8).flatMap fun r => (List.range 8).map fun c => ((r : ℤ), (c : ℤ))

/-- `get_all_valid_placements(grid, piece_cells)` from utils.py: the anchors,
in row-major scan order, at which `can_place_piece` holds. -/
def validPositions (g : Grid) (cells : List (ℤ × ℤ)) : List (ℤ × ℤ) :=
  allAnchors.filter fun p => canPlace g cells p

/-- `place_piece(grid, piece_cells, position)` from utils.py: a fresh grid in
which every absolute cell of the piece is set `True` and all other cells keep
their previous value (the Python code copies the grid and assigns). -/
def placePiece (g : Grid) (cells : List (ℤ × ℤ)) (pos : ℤ × ℤ) : Grid :=
  fun i j => g i j || cells.any fun d =>
    decide (pos.1 + d.1 = ((i : ℕ) : ℤ)) && decide (pos.2 + d.2 = ((j : ℕ) : ℤ))

/-- `np.all(new_grid[row, :])`: row `i` is completely occupied. -/
def rowFull (g : Grid) (i : Fin 8) : Bool :=
  (List.finRange 8).all fun j => g i j

/-- `np.all(new_grid[:, col])`: column `j` is completely occupied. -/
def colFull (g : Grid) (j : Fin 8) : Bool :=
  (List.finRange 8).all fun i => g i j

/-- The first loop of `clear_complete_lines`: every complete row is set to
`False`. Each iteration writes only the row it tested and tests only the row
it is about, so the sequential Python loop equals this pointwise map. -/
def clearRowsPass (g : Grid) : Grid :=
  fun i j => if rowFull g i then false else g i j

/-- The second loop of `clear_complete_lines`: run on the grid left by the
row pass, every column complete *there* is set to `False`. Each iteration
writes only the column it tested, so the sequential loop equals this map. -/
def clearColsPass (g : Grid) : Grid :=
  fun i j => if colFull g j then false else g i j

/-- Number of complete rows of `g` (rows cleared by the first loop). -/
def numRowsFull (g : Grid) : ℕ :=
  ((List.finRange 8).filter fun i => rowFull g i).length

/-- Number of complete columns of `g`. -/
def numColsFull (g : Grid) : ℕ :=
  ((List.finRange 8).filter fun j => colFull g j).length

/-- `clear_complete_lines(grid)` from utils.py: rows are cleared first
against the input grid; columns are then tested against the row-cleared grid
and cleared; the count is rows cleared plus columns cleared. -/
def clearLines (g : Grid) : Grid × ℕ :=
  let g1 := clearRowsPass g
  (clearColsPass g1, numRowsFull g + numColsFull g1)

/-! ### Shapes (block_shapes.py) -/

/-- Lexicographic order on (row, col) pairs, the order used by Python's
`sorted` on tuples in `BlockShape._normalize`. -/
def lexLE (a b : ℤ × ℤ) : Prop :=
  a.1 < b.1 ∨ (a.1 = b.1 ∧ a.2 ≤ b.2)

instance : DecidableRel lexLE := fun a b => by unfold lexLE; infer_instance

/-- `sorted(normalized)`: lexicographic sort of the cell list. -/
def sortCells (l : List (ℤ × ℤ)) : List (ℤ × ℤ) :=
  l.insertionSort lexLE

/-- `BlockShape._normalize(cells)`: shift so the minimum row and column are
zero, then sort lexicographically; the empty list maps to itself. -/
def normalize (cells : List (ℤ × ℤ)) : List (ℤ × ℤ) :=
  match cells with
  | [] => []
  | c0 :: _ =>
    let minR := (cells.map Prod.fst).foldl min c0.1
    let minC := (cells.map Prod.snd).foldl min c0.2
    sortCells (cells.map fun p => (p.1 - minR, p.2 - minC))

/-- `rotate_90`: `(r, c) ↦ (c, -r)`, then the constructor normalizes. -/
def rot90 (s : List (ℤ × ℤ)) : List (ℤ × ℤ) :=
  normalize (s.map fun p => (p.2, -p.1))

/-- `rotate_180`: `(r, c) ↦ (-r, -c)`, then normalize. -/
def rot180 (s : List (ℤ × ℤ)) : List (ℤ × ℤ) :=
  normalize (s.map fun p => (-p.1, -p.2))

/-- `rotate_270`: `(r, c) ↦ (-c, r)`, then normalize. -/
def rot270 (s : List (ℤ × ℤ)) : List (ℤ × ℤ) :=
  normalize (s.map fun p => (-p.2, p.1))

/-- `flip_horizontal`: `(r, c) ↦ (r, -c)`, then normalize. -/
def flipH (s : List (ℤ × ℤ)) : List (ℤ × ℤ) :=
  normalize (s.map fun p => (p.1, -p.2))

/-- `flip_vertical`: `(r, c) ↦ (-r, c)`, then normalize. -/
def flipV (s : List (ℤ × ℤ)) : List (ℤ × ℤ) :=
  normalize (s.map fun p => (-p.1, p.2))

/-- The seen-set loop of `get_all_orientations`: keep an element iff it has
not been seen, recording what was kept. -/
def dedupSeen {α : Type} [DecidableEq α] : List α → List α → List α
  | _, [] => []
  | seen, a :: t =>
    if a ∈ seen then dedupSeen seen t else a :: dedupSeen (a :: seen) t

/-- First-occurrence deduplication, as Python's seen-set loop in
`get_all_orientations`: keep each element's first occurrence, in order. -/
def dedupF {α : Type} [DecidableEq α] (l : List α) : List α :=
  dedupSeen [] l

/-- `BlockShape.get_all_orientations`: the eight dihedral images of the
(already normalized) cell list, deduplicated keeping first occurrences.
`self.flip_horizontal().rotate_90()` is `rot90 (flipH s)` and
`self.flip_horizontal().rotate_180()` is `rot180 (flipH s)`. -/
def getAllOrientations (s : List (ℤ × ℤ)) : List (List (ℤ × ℤ)) :=
  dedupF [s, rot90 s, rot180 s, rot270 s, flipH s, flipV s,
          rot90 (flipH s), rot180 (flipH s)]

/-! ### Hole counting and evaluation (utils.py, solver.py) -/

/-- The eight neighbor offsets scanned by `count_holes`, in loop order
(`dr` outer, `dc` inner, skipping `(0, 0)`). -/
def neighborOffsets : List (ℤ × ℤ) :=
  [(-1, -1), (-1, 0), (-1, 1), (0, -1), (0, 1), (1, -1), (1, 0), (1, 1)]

/-- `total_neighbors` of a cell: its in-bounds neighbors among the eight. -/
def totalNeighbors (i j : Fin 8) : ℕ :=
  (neighborOffsets.filter fun d =>
    inBounds (((i : ℕ) : ℤ) + d.1) (((j : ℕ) : ℤ) + d.2)).length

/-- `occupied_neighbors` of a cell: its in-bounds occupied neighbors. -/
def occNeighbors (g : Grid) (i j : Fin 8) : ℕ :=
  (neighborOffsets.filter fun d =>
    inBounds (((i : ℕ) : ℤ) + d.1) (((j : ℕ) : ℤ) + d.2) &&
      cellAt g (((i : ℕ) : ℤ) + d.1) (((j : ℕ) : ℤ) + d.2)).length

/-- The hole test of `count_holes`: the cell is empty, has at least one
in-bounds neighbor, and `occupied_neighbors / total_neighbors > 0.5` (the
ratio taken exactly, which agrees with the Python float comparison on every
value these small counts can produce). -/
def isHole (g : Grid) (i j : Fin 8) : Bool :=
  !g i j && (decide (0 < totalNeighbors i j) &&
    decide ((occNeighbors g i j : ℚ) / (totalNeighbors i j : ℚ) > 1 / 2))

/-- The 64 cells in row-major scan order. -/
def cellsRowMajor : List (Fin 8 × Fin 8) :=
  (List.finRange 8).flatMap fun i => (List.finRange 8).map fun j => (i, j)

/-- `count_holes(grid)` from utils.py. -/
def countHoles (g : Grid) : ℕ :=
  (cellsRowMajor.filter fun p => isHole g p.1 p.2).length

/-- `np.sum(grid)`: number of occupied cells. -/
def occupiedCount (g : Grid) : ℕ :=
  (cellsRowMajor.filter fun p => g p.1 p.2).length

/-- `calculate_coverage(grid)`: occupied fraction. -/
def coverage (g : Grid) : ℚ :=
  (occupiedCount g : ℚ) / 64

/-- `np.sum(grid[row, :])`: occupied cells of row `i`. -/
def rowCount (g : Grid) (i : Fin 8) : ℕ :=
  ((List.finRange 8).filter fun j => g i j).length

/-- `np.sum(grid[:, col])`: occupied cells of column `j`. -/
def colCount (g : Grid) (j : Fin 8) : ℕ :=
  ((List.finRange 8).filter fun i => g i j).length

/-- Near-completion bonus over rows: `(occupied - 5) * 5` for every row with
at least 6 occupied cells. -/
def nearRowBonus (g : Grid) : ℚ :=
  ((List.finRange 8).map fun i =>
    if 6 ≤ rowCount g i then ((rowCount g i : ℚ) - 5) * 5 else 0).sum

/-- Near-completion bonus over columns. -/
def nearColBonus (g : Grid) : ℚ :=
  ((List.finRange 8).map fun j =>
    if 6 ≤ colCount g j then ((colCount g j : ℚ) - 5) * 5 else 0).sum

/-- In-bounds cell construction from integer coordinates. -/
def mkCell (r c : ℤ) : Option (Fin 8 × Fin 8) :=
  if h : 0 ≤ r ∧ r < 8 ∧ 0 ≤ c ∧ c < 8 then
    some (⟨r.toNat, by omega⟩, ⟨c.toNat, by omega⟩)
  else
    none

/-- The in-bounds 4-neighbors of a cell, in the dfs recursion order
`(r+1, c), (r-1, c), (r, c+1), (r, c-1)` of `_count_empty_groups`. -/
def neighbors4 (p : Fin 8 × Fin 8) : List (Fin 8 × Fin 8) :=
  ([((1 : ℤ), (0 : ℤ)), (-1, 0), (0, 1), (0, -1)]).filterMap fun d =>
    mkCell (((p.1 : ℕ) : ℤ) + d.1) (((p.2 : ℕ) : ℤ) + d.2)

/-- The recursive dfs of `_count_empty_groups`, run iteratively with an
explicit stack: pop a cell, skip it if already visited or occupied,
otherwise mark it and push its 4-neighbors. The fuel strictly exceeds the
total number of possible pushes (1 + 4·64), so it is never exhausted and the
function computes exactly the dfs's visited set. -/
def floodFill (g : Grid) : ℕ → List (Fin 8 × Fin 8) → List (Fin 8 × Fin 8) → List (Fin 8 × Fin 8)
  | 0, _, visited => visited
  | _ + 1, [], visited => visited
  | fuel + 1, p :: rest, visited =>
    if p ∈ visited ∨ g p.1 p.2 then floodFill g fuel rest visited
    else floodFill g fuel (neighbors4 p ++ rest) (p :: visited)

/-- `BlockBlastSolver._count_empty_groups`: scan cells row-major; every
empty, not-yet-visited cell seeds a dfs and counts one group. -/
def countEmptyGroups (g : Grid) : ℕ :=
  (cellsRowMajor.foldl
    (fun acc p =>
      if g p.1 p.2 = false ∧ p ∉ acc.1 then
        (floodFill g 1000 [p] acc.1, acc.2 + 1)
      else acc)
    ([], 0)).2

/-- SCORE_ROW_CLEAR from config.py. -/
def SCORE_ROW_CLEAR : ℚ := 100

/-- SCORE_HOLE_PENALTY from config.py. -/
def SCORE_HOLE_PENALTY : ℚ := -10

/-- SCORE_COVERAGE from config.py. -/
def SCORE_COVERAGE : ℚ := 1

/-- Fragmentation penalty of `evaluate_position`: `(groups - 3) * 5` when
there are more than 3 empty groups. -/
def fragPenalty (g : Grid) : ℚ :=
  if 3 < countEmptyGroups g then ((countEmptyGroups g : ℚ) - 3) * 5 else 0

/-- `BlockBlastSolver.evaluate_position(grid, lines_cleared)`. -/
def evaluatePosition (g : Grid) (linesCleared : ℕ) : ℚ :=
  (linesCleared : ℚ) * SCORE_ROW_CLEAR
    + (countHoles g : ℚ) * SCORE_HOLE_PENALTY
    + (1 - coverage g) * SCORE_COVERAGE * 100
    + nearRowBonus g + nearColBonus g
    - fragPenalty g

/-! ### Move search (solver.py) -/

/-- The `Move` dataclass of solver.py. -/
structure Move where
  piece_index : ℕ
  position : ℤ × ℤ
  piece_cells : List (ℤ × ℤ)
  score : ℚ
  lines_cleared : ℕ
  resulting_grid : Grid

instance : DecidableEq Move := fun a b => by
  cases a; cases b
  exact decidable_of_iff _ (Move.mk.injEq _ _ _ _ _ _ _ _ _ _ _ _).to_iff.symm

/-- The candidate moves of one oriented piece: one `Move` per valid anchor,
in row-major anchor order, simulating placement, clearing and scoring as the
inner loop of `find_best_move` / `get_top_moves` does. -/
def movesForCells (g : Grid) (idx : ℕ) (cells : List (ℤ × ℤ)) : List Move :=
  (validPositions g cells).map fun pos =>
    let cl := clearLines (placePiece g cells pos)
    { piece_index := idx, position := pos, piece_cells := cells,
      score := evaluatePosition cl.1 cl.2, lines_cleared := cl.2,
      resulting_grid := cl.1 }

/-- The full candidate enumeration shared by `find_best_move` and
`get_top_moves`: piece index ascending, then the piece's orientations in
generator order, then anchors row-major. Each piece is a `BlockShape`'s
(constructor-normalized) cell list. -/
def allMovesList (g : Grid) (pieces : List (List (ℤ × ℤ))) : List Move :=
  pieces.enum.flatMap fun pi =>
    (getAllOrientations pi.2).flatMap fun cells =>
      movesForCells g pi.1 cells

/-- Python's `max(moves, key=...)`: fold keeping the current maximum and
replacing it only on a strictly greater key, so the first maximum wins. -/
def pyMaxBy (f : Move → ℚ) : Move → List Move → Move
  | c, [] => c
  | c, x :: t => pyMaxBy f (if f c < f x then x else c) t

/-- `BlockBlastSolver.find_best_move`: `None` when no candidate exists,
otherwise `max(all_moves, key=lambda m: m.score)`. -/
def findBestMove (g : Grid) (pieces : List (List (ℤ × ℤ))) : Option Move :=
  match allMovesList g pieces with
  | [] => none
  | a :: t => some (pyMaxBy (fun m => m.score) a t)

/-- `solve_puzzle(grid, pieces)` from solver.py: build the solver (which only
copies the grid — it performs no validation) and run `find_best_move`. -/
def solvePuzzle (g : Grid) (pieces : List (List (ℤ × ℤ))) : Option Move :=
  findBestMove g pieces

/-- Descending-score preorder used to model Python's
`sort(key=lambda m: m.score, reverse=True)`. -/
def moveGE (a b : Move) : Prop := b.score ≤ a.score

instance : DecidableRel moveGE := fun a b => by unfold moveGE; infer_instance

instance : IsTotal Move moveGE := ⟨fun a b => le_total b.score a.score⟩

instance : IsTrans Move moveGE := ⟨fun _ _ _ h1 h2 => le_trans h2 h1⟩

/-- `BlockBlastSolver.get_top_moves(n)`: the full enumeration, stably sorted
by score descending (Python's sort is stable; a stable descending sort is
unique, and insertion sort with `moveGE` is stable), truncated to `n`. -/
def getTopMoves (g : Grid) (pieces : List (List (ℤ × ℤ))) (n : ℕ) : List Move :=
  ((allMovesList g pieces).insertionSort moveGE).take n

/-- `validate_grid` from utils.py on a raw row-list view of the numpy input:
the shape must be 8×8. It exists in the code base but is never called on the
solver path (`solve_puzzle` does not invoke it). -/
def validateGrid (raw : List (List Bool)) : Bool :=
  decide (raw.length = 8) && raw.all fun row => decide (row.length = 8)

/-! ### Concrete example grids -/

/-- Row 0 and column 0 fully occupied, everything else empty. -/
def exCross : Grid := fun i j => decide (i = 0) || decide (j = 0)

/-- All cells occupied except the main diagonal. -/
def exDiag : Grid := fun i j => decide (i ≠ j)

/-- A fully occupied grid. -/
def exFull : Grid := fun _ _ => true

/-- The empty grid. -/
def exEmpty : Grid := fun _ _ => false

/-! ### Lemmas about line clearing -/

/-- A row is full iff every cell of it is occupied. -/
theorem rowFull_iff (g : Grid) (i : Fin 8) :
    rowFull g i = true ↔ ∀ j, g i j = true := by
  simp [rowFull, List.all_eq_true, List.mem_finRange]

/-- A column is full iff every cell of it is occupied. -/
theorem colFull_iff (g : Grid) (j : Fin 8) :
    colFull g j = true ↔ ∀ i, g i j = true := by
  simp [colFull, List.all_eq_true, List.mem_finRange]

/-- No row is cleared by the first pass iff no row of the input is full. -/
theorem numRowsFull_eq_zero_iff (g : Grid) :
    numRowsFull g = 0 ↔ ∀ i, rowFull g i = false := by
  simp only [numRowsFull, List.length_eq_zero, List.filter_eq_nil_iff]
  constructor
  · intro h i
    have := h i (List.mem_finRange i)
    simpa using this
  · intro h i _
    simp [h i]

/-- No column is cleared iff no column is full. -/
theorem numColsFull_eq_zero_iff (g : Grid) :
    numColsFull g = 0 ↔ ∀ j, colFull g j = false := by
  simp only [numColsFull, List.length_eq_zero, List.filter_eq_nil_iff]
  constructor
  · intro h j
    have := h j (List.mem_finRange j)
    simpa using this
  · intro h j _
    simp [h j]

/-- Pointwise value of the row-clearing pass. -/
theorem clearRowsPass_apply (g : Grid) (i j : Fin 8) :
    clearRowsPass g i j = if rowFull g i then false else g i j := rfl

/-- If no row of `g` is full, the row pass leaves `g` unchanged. -/
theorem clearRowsPass_of_no_full_row (g : Grid) (h : ∀ i, rowFull g i = false) :
    clearRowsPass g = g := by
  funext i j
  simp [clearRowsPass, h i]

/-- A column survives the row pass still full iff it was full in the input
and no row at all was full: clearing any full row empties one cell of every
column. -/
theorem colFull_clearRowsPass (g : Grid) (j : Fin 8) :
    colFull (clearRowsPass g) j = true ↔
      colFull g j = true ∧ numRowsFull g = 0 := by
  constructor
  · intro h
    have h' := (colFull_iff _ j).mp h
    have hrow : ∀ i, rowFull g i = false := by
      intro i
      have := h' i
      rw [clearRowsPass_apply] at this
      by_cases hr : rowFull g i = true
      · simp [hr] at this
      · exact Bool.not_eq_true _ |>.mp hr
    refine ⟨(colFull_iff g j).mpr fun i => ?_, (numRowsFull_eq_zero_iff g).mpr hrow⟩
    have := h' i
    rw [clearRowsPass_apply, hrow i] at this
    simpa using this
  · rintro ⟨hc, hz⟩
    rw [clearRowsPass_of_no_full_row g ((numRowsFull_eq_zero_iff g).mp hz)]
    exact hc

/-- Number of columns cleared by the second pass: all the input's full
columns when no row was full, none otherwise. -/
theorem numColsFull_clearRowsPass (g : Grid) :
    numColsFull (clearRowsPass g) =
      if numRowsFull g = 0 then numColsFull g else 0 := by
  by_cases hz : numRowsFull g = 0
  · rw [if_pos hz, clearRowsPass_of_no_full_row g ((numRowsFull_eq_zero_iff g).mp hz)]
  · rw [if_neg hz]
    simp only [numColsFull, List.length_eq_zero, List.filter_eq_nil_iff]
    intro j _
    simp only [Bool.not_eq_true]
    by_cases hc : colFull (clearRowsPass g) j = true
    · exact absurd ((colFull_clearRowsPass g j).mp hc).2 hz
    · exact Bool.not_eq_true _ |>.mp hc

/-- C1 (counterexample). With row 0 and column 0 both complete in the input
(`exCross`), the claim predicts two cleared lines and an empty column 0; the
code clears only the row (one line) and cell (1,0) of the output is still
occupied, because columns are re-tested only after the rows were cleared. -/
theorem clearLines_cross_counterexample :
    numRowsFull exCross = 1 ∧ numColsFull exCross = 1 ∧
    (clearLines exCross).2 = 1 ∧
    colFull exCross (0 : Fin 8) = true ∧
    (clearLines exCross).1 (1 : Fin 8) (0 : Fin 8) = true := by
  decide

/-- C1 (amended). `clearLines` clears every row that is complete in the
input; a column is cleared iff it is complete in the input *and* no row was
complete (clearing any row empties one of the column's cells); every other
cell is unchanged, and `linesCleared` is the number of complete rows plus —
only when there are no complete rows — the number of complete columns. -/
theorem clearLines_sequential_semantics (g : Grid) :
    (∀ i j, (clearLines g).1 i j = false ↔
      (g i j = false ∨ rowFull g i = true ∨
        (colFull g j = true ∧ numRowsFull g = 0)))
    ∧ (clearLines g).2 =
        numRowsFull g + (if numRowsFull g = 0 then numColsFull g else 0) := by
  constructor
  · intro i j
    show clearColsPass (clearRowsPass g) i j = false ↔ _
    simp only [clearColsPass]
    by_cases hc : colFull (clearRowsPass g) j = true
    · rw [hc]
      simp only [if_true]
      have := (colFull_clearRowsPass g j).mp hc
      tauto
    · rw [Bool.not_eq_true _ |>.mp hc]
      simp only [Bool.false_eq_true, if_false, clearRowsPass_apply]
      by_cases hr : rowFull g i = true
      · simp [hr]
      · rw [Bool.not_eq_true _ |>.mp hr]
        simp only [Bool.false_eq_true, if_false]
        constructor
        · intro h; exact Or.inl h
        · rintro (h | h | h)
          · exact h
          · exact h.elim
          · exact absurd ((colFull_clearRowsPass g j).mpr ⟨h.1, h.2⟩) hc
  · show numRowsFull g + numColsFull (clearRowsPass g) = _
    rw [numColsFull_clearRowsPass]

/-- C1 (amended, witness at `exCross`). -/
theorem clearLines_sequential_semantics_witness :
    ((clearLines exCross).1 (1 : Fin 8) (0 : Fin 8) = false ↔
      (exCross (1 : Fin 8) (0 : Fin 8) = false ∨ rowFull exCross (1 : Fin 8) = true ∨
        (colFull exCross (0 : Fin 8) = true ∧ numRowsFull exCross = 0)))
    ∧ (clearLines exCross).2 =
        numRowsFull exCross +
          (if numRowsFull exCross = 0 then numColsFull exCross else 0) :=
  ⟨(clearLines_sequential_semantics exCross).1 1 0,
   (clearLines_sequential_semantics exCross).2⟩

/-- C7. `clearLines` is idempotent: a second call on the output of a first
call (with no placement in between) returns the grid unchanged and clears
zero lines, because the output has no complete row and no complete column. -/
theorem clearLines_idempotent (g : Grid) :
    clearLines (clearLines g).1 = ((clearLines g).1, 0) := by
  set g1 := clearRowsPass g with hg1
  have hrow : ∀ i, rowFull (clearColsPass g1) i = false := by
    intro i
    by_cases h : rowFull (clearColsPass g1) i = true
    · exfalso
      have hall := (rowFull_iff _ i).mp h
      by_cases hr : rowFull g i = true
      · have h0 := hall 0
        have hc0 : colFull g1 (0 : Fin 8) = false := by
          by_cases hcf : colFull g1 0 = true
          · have := hall 0
            simp [clearColsPass, hcf] at this
          · exact Bool.not_eq_true _ |>.mp hcf
        have : g1 i (0 : Fin 8) = true := by
          have := hall 0
          simpa [clearColsPass, hc0] using this
        rw [hg1, clearRowsPass_apply, hr] at this
        simp at this
      · have : rowFull g1 i = true := by
          refine (rowFull_iff _ i).mpr fun j => ?_
          have hj := hall j
          by_cases hcf : colFull g1 j = true
          · simp [clearColsPass, hcf] at hj
          · simpa [clearColsPass, Bool.not_eq_true _ |>.mp hcf] using hj
        have : rowFull g i = true := by
          refine (rowFull_iff _ i).mpr fun j => ?_
          have := (rowFull_iff _ i).mp this j
          rw [hg1, clearRowsPass_apply, Bool.not_eq_true _ |>.mp hr] at this
          simpa using this
        exact hr this
    · exact Bool.not_eq_true _ |>.mp h
  have hcol : ∀ j, colFull (clearColsPass g1) j = false := by
    intro j
    by_cases h : colFull (clearColsPass g1) j = true
    · exfalso
      have hall := (colFull_iff _ j).mp h
      by_cases hcf : colFull g1 j = true
      · have := hall 0
        simp [clearColsPass, hcf] at this
      · have : colFull g1 j = true := by
          refine (colFull_iff _ j).mpr fun i => ?_
          have := hall i
          simpa [clearColsPass, Bool.not_eq_true _ |>.mp hcf] using this
        exact hcf this
    · exact Bool.not_eq_true _ |>.mp h
  have hz : numRowsFull (clearColsPass g1) = 0 :=
    (numRowsFull_eq_zero_iff _).mpr hrow
  have hzc : numColsFull (clearColsPass g1) = 0 :=
    (numColsFull_eq_zero_iff _).mpr hcol
  show (_, _) = (_, _)
  have hrp : clearRowsPass (clearColsPass g1) = clearColsPass g1 :=
    clearRowsPass_of_no_full_row _ hrow
  refine Prod.ext ?_ ?_
  · show clearColsPass (clearRowsPass (clearColsPass g1)) = clearColsPass g1
    rw [hrp]
    funext i j
    simp [clearColsPass, hcol j, clearColsPass]
  · show numRowsFull (clearColsPass g1) + numColsFull (clearRowsPass (clearColsPass g1)) = 0
    rw [hrp, hz, hzc]

/-! ### Placement claims -/

/-- `inBounds` unfolded to the arithmetic bounds. -/
theorem inBounds_iff (r c : ℤ) :
    inBounds r c = true ↔ 0 ≤ r ∧ r < 8 ∧ 0 ≤ c ∧ c < 8 := by
  simp [inBounds, and_assoc]

/-- Reading an in-bounds cell. -/
theorem cellAt_of_inBounds (g : Grid) (r c : ℤ)
    (h : 0 ≤ r ∧ r < 8 ∧ 0 ≤ c ∧ c < 8) :
    cellAt g r c = g ⟨r.toNat, by omega⟩ ⟨c.toNat, by omega⟩ := by
  rw [cellAt, dif_pos h]

/-- C3. `validPositions` agrees with `canPlace` on all 64 anchors:
`canPlace` holds iff every absolute cell of the piece is in bounds and
unoccupied; every returned anchor satisfies `canPlace`, every anchor not
returned fails it, and the scan covers exactly the 64 anchors. -/
theorem validPositions_agree_canPlace (g : Grid) (cells : List (ℤ × ℤ))
    (hne : cells ≠ []) :
    (∀ a : ℤ × ℤ, canPlace g cells a = true ↔
      ∀ d ∈ cells, inBounds (a.1 + d.1) (a.2 + d.2) = true ∧
        cellAt g (a.1 + d.1) (a.2 + d.2) = false)
    ∧ (∀ a ∈ allAnchors, (a ∈ validPositions g cells ↔ canPlace g cells a = true))
    ∧ (∀ a ∈ validPositions g cells, a ∈ allAnchors)
    ∧ allAnchors.length = 64 := by
  refine ⟨fun a => ?_, fun a ha => ?_, fun a ha => ?_, by decide⟩
  · simp [canPlace, List.all_eq_true, Bool.and_eq_true, Bool.not_eq_true']
  · constructor
    · intro h
      exact (List.mem_filter.mp h).2
    · intro h
      exact List.mem_filter.mpr ⟨ha, h⟩
  · exact (List.mem_filter.mp ha).1

/-- C3 (witness): the single-cell piece on the empty grid at anchor (0,0). -/
theorem validPositions_agree_canPlace_witness :
    ([((0 : ℤ), (0 : ℤ))] ≠ ([] : List (ℤ × ℤ)))
    ∧ (canPlace exEmpty [((0 : ℤ), (0 : ℤ))] ((0 : ℤ), (0 : ℤ)) = true ↔
      ∀ d ∈ [((0 : ℤ), (0 : ℤ))],
        inBounds ((0 : ℤ) + d.1) ((0 : ℤ) + d.2) = true ∧
          cellAt exEmpty ((0 : ℤ) + d.1) ((0 : ℤ) + d.2) = false)
    ∧ (((3 : ℤ), (4 : ℤ)) ∈ validPositions exEmpty [((0 : ℤ), (0 : ℤ))] ↔
      canPlace exEmpty [((0 : ℤ), (0 : ℤ))] ((3 : ℤ), (4 : ℤ)) = true) :=
  ⟨by decide,
   (validPositions_agree_canPlace exEmpty _ (by decide)).1 ((0 : ℤ), (0 : ℤ)),
   (validPositions_agree_canPlace exEmpty _ (by decide)).2.1 ((3 : ℤ), (4 : ℤ))
     (by decide)⟩

/-- C5. Under the `canPlace` precondition, `placePiece` turns exactly the
piece's absolute cells from empty to occupied and leaves every other cell
unchanged (the Python function copies the grid, so the input is untouched;
in this functional embedding the input value is immutable by construction). -/
theorem placePiece_frame (g : Grid) (cells : List (ℤ × ℤ)) (a : ℤ × ℤ)
    (h : canPlace g cells a = true) :
    (∀ d ∈ cells, cellAt g (a.1 + d.1) (a.2 + d.2) = false ∧
      cellAt (placePiece g cells a) (a.1 + d.1) (a.2 + d.2) = true)
    ∧ (∀ i j : Fin 8,
        (∀ d ∈ cells, ¬(a.1 + d.1 = ((i : ℕ) : ℤ) ∧ a.2 + d.2 = ((j : ℕ) : ℤ))) →
        placePiece g cells a i j = g i j) := by
  constructor
  · intro d hd
    have hall := (List.all_eq_true.mp h) d hd
    have hb : inBounds (a.1 + d.1) (a.2 + d.2) = true := by
      cases Bool.and_eq_true _ _ |>.mp hall with
      | intro h1 h2 => exact h1
    have hocc : cellAt g (a.1 + d.1) (a.2 + d.2) = false := by
      cases Bool.and_eq_true _ _ |>.mp hall with
      | intro h1 h2 => simpa using h2
    have hbb := (inBounds_iff _ _).mp hb
    refine ⟨hocc, ?_⟩
    rw [cellAt_of_inBounds _ _ _ hbb]
    show (placePiece g cells a) _ _ = true
    simp only [placePiece, Bool.or_eq_true, List.any_eq_true]
    refine Or.inr ⟨d, hd, ?_⟩
    have e1 : ((((a.1 + d.1).toNat : ℕ) : ℤ)) = a.1 + d.1 :=
      Int.toNat_of_nonneg hbb.1
    have e2 : ((((a.2 + d.2).toNat : ℕ) : ℤ)) = a.2 + d.2 :=
      Int.toNat_of_nonneg hbb.2.2.1
    simp [e1, e2]
  · intro i j hfar
    simp only [placePiece, Bool.or_eq_false_iff]
    have : (cells.any fun d =>
        decide (a.1 + d.1 = ((i : ℕ) : ℤ)) &&
          decide (a.2 + d.2 = ((j : ℕ) : ℤ))) = false := by
      rw [List.any_eq_false]
      intro d hd
      have := hfar d hd
      simp only [Bool.and_eq_true, decide_eq_true_eq]
      tauto
    rw [this, Bool.or_false]

/-- C5 (witness): the horizontal domino on the empty grid at anchor (2,3). -/
theorem placePiece_frame_witness :
    (cellAt exEmpty ((2 : ℤ) + 0) ((3 : ℤ) + 0) = false ∧
      cellAt (placePiece exEmpty [((0 : ℤ), (0 : ℤ)), (0, 1)] ((2 : ℤ), (3 : ℤ)))
        ((2 : ℤ) + 0) ((3 : ℤ) + 0) = true)
    ∧ placePiece exEmpty [((0 : ℤ), (0 : ℤ)), (0, 1)] ((2 : ℤ), (3 : ℤ))
        (0 : Fin 8) (5 : Fin 8) = exEmpty (0 : Fin 8) (5 : Fin 8) :=
  ⟨(placePiece_frame exEmpty [((0 : ℤ), (0 : ℤ)), (0, 1)] ((2 : ℤ), (3 : ℤ))
      (by decide)).1 ((0 : ℤ), (0 : ℤ)) (by decide),
   (placePiece_frame exEmpty [((0 : ℤ), (0 : ℤ)), (0, 1)] ((2 : ℤ), (3 : ℤ))
      (by decide)).2 (0 : Fin 8) (5 : Fin 8) (by decide)⟩

/-- The full enumeration for the single empty-celled piece is one move per
anchor. -/
theorem allMovesList_emptyPiece (g : Grid) :
    allMovesList g [[]] = movesForCells g 0 [] := by
  show movesForCells g 0 [] ++ [] = movesForCells g 0 []
  exact List.append_nil _

/-- An empty piece is feasible everywhere. -/
theorem validPositions_emptyPiece (g : Grid) :
    validPositions g [] = allAnchors :=
  List.filter_eq_self.mpr fun _ _ => rfl

/-- The empty piece yields exactly one candidate per anchor. -/
theorem length_allMovesList_emptyPiece (g : Grid) :
    (allMovesList g [[]]).length = 64 := by
  rw [allMovesList_emptyPiece]
  show ((validPositions g []).map _).length = 64
  rw [List.length_map, validPositions_emptyPiece g]
  decide

/-- C10 (implicit). A piece whose cell list is empty passes `canPlace` at
every anchor of every grid, so `validPositions` returns all 64 anchors and
the search enumerates one candidate move per anchor for it instead of
rejecting it. -/
theorem emptyPiece_enumerated (g : Grid) :
    (∀ a : ℤ × ℤ, canPlace g [] a = true)
    ∧ validPositions g [] = allAnchors
    ∧ allAnchors.length = 64
    ∧ (allMovesList g [[]]).length = 64
    ∧ ∀ a ∈ allAnchors, ∃ m ∈ allMovesList g [[]], m.position = a := by
  refine ⟨fun a => rfl, validPositions_emptyPiece g,
    by decide, length_allMovesList_emptyPiece g, ?_⟩
  · intro a ha
    rw [allMovesList_emptyPiece]
    refine ⟨_, List.mem_map.mpr ⟨a, ?_, rfl⟩, rfl⟩
    rw [validPositions_emptyPiece g]
    exact ha

/-- C10 (witness): the fully occupied grid still admits the empty piece at
anchor (0,0), with a candidate move there. -/
theorem emptyPiece_enumerated_witness :
    canPlace exFull [] ((0 : ℤ), (0 : ℤ)) = true
    ∧ validPositions exFull [] = allAnchors
    ∧ ∃ m ∈ allMovesList exFull [[]], m.position = ((0 : ℤ), (0 : ℤ)) :=
  ⟨(emptyPiece_enumerated exFull).1 ((0 : ℤ), (0 : ℤ)),
   (emptyPiece_enumerated exFull).2.1,
   (emptyPiece_enumerated exFull).2.2.2.2 ((0 : ℤ), (0 : ℤ)) (by decide)⟩

/-- C2 (counterexample). An `InvalidPiece` input — a piece with an empty
offset list — is not rejected: `solve_puzzle` runs the search, enumerates a
candidate at all 64 anchors and returns a move. (No validation error exists
on this path; `validate_grid` is never called by `solve_puzzle`.) -/
theorem solvePuzzle_accepts_empty_piece_cex :
    (solvePuzzle exDiag [[]]).isSome = true
    ∧ (allMovesList exDiag [[]]).length = 64 := by
  constructor
  · rfl
  · decide

/-- C2 (amended). `solve_puzzle` performs no input validation: for every
grid, a piece list containing the empty piece is searched like any other —
the enumeration produces exactly 64 candidates for that piece and the call
returns a move rather than failing. -/
theorem solvePuzzle_no_validation (g : Grid) :
    (solvePuzzle g [[]]).isSome = true
    ∧ (allMovesList g [[]]).length = 64 := by
  have hlen : (allMovesList g [[]]).length = 64 :=
    length_allMovesList_emptyPiece g
  refine ⟨?_, hlen⟩
  cases h : allMovesList g [[]] with
  | nil => rw [h] at hlen; simp at hlen
  | cons a t => simp [solvePuzzle, findBestMove, h]

/-! ### Hole-count claim -/

/-- A cell has at most as many occupied in-bounds neighbors as in-bounds
neighbors. -/
theorem occNeighbors_le_totalNeighbors (g : Grid) (i j : Fin 8) :
    occNeighbors g i j ≤ totalNeighbors i j := by
  rw [occNeighbors, totalNeighbors,
    ← List.countP_eq_length_filter, ← List.countP_eq_length_filter]
  refine List.countP_mono_left fun d _ h => ?_
  exact (Bool.and_eq_true _ _ |>.mp h).1

/-- The exact-ratio test of the code is the strict-majority test of the
claim: with `occ ≤ tot`, `0 < tot` and `occ/tot > 1/2` hold together iff
`tot < 2·occ`. -/
theorem ratio_gt_half_iff (occ tot : ℕ) (hle : occ ≤ tot) :
    (0 < tot ∧ 1 / 2 < (occ : ℚ) / tot) ↔ tot < 2 * occ := by
  constructor
  · rintro ⟨hpos, hr⟩
    have hposQ : (0 : ℚ) < tot := by exact_mod_cast hpos
    rw [div_lt_div_iff₀ (by norm_num) hposQ] at hr
    have : (tot : ℚ) < 2 * occ := by linarith
    exact_mod_cast this
  · intro h
    have hpos : 0 < tot := by omega
    have hposQ : (0 : ℚ) < tot := by exact_mod_cast hpos
    refine ⟨hpos, ?_⟩
    rw [div_lt_div_iff₀ (by norm_num) hposQ]
    have : (tot : ℚ) < 2 * occ := by exact_mod_cast h
    linarith

/-- The code's per-cell hole test, characterized as the claim states it:
the cell is empty and strictly more than half of its in-bounds neighbors
are occupied. -/
theorem isHole_iff (g : Grid) (i j : Fin 8) :
    isHole g i j = true ↔
      (g i j = false ∧ totalNeighbors i j < 2 * occNeighbors g i j) := by
  have hk := ratio_gt_half_iff (occNeighbors g i j) (totalNeighbors i j)
    (occNeighbors_le_totalNeighbors g i j)
  simp only [isHole, Bool.and_eq_true, decide_eq_true_eq, gt_iff_lt]
  constructor
  · rintro ⟨h1, h2, h3⟩
    refine ⟨by simpa using h1, hk.mp ⟨h2, h3⟩⟩
  · rintro ⟨h1, h2⟩
    have := hk.mpr h2
    exact ⟨by simpa using h1, this.1, this.2⟩

/-- C9. `count_holes` counts exactly the cells that are empty and have
strictly more than half of their in-bounds 8-neighborhood occupied; an
occupied cell, or one with at most half its in-bounds neighbors occupied,
is never counted. -/
theorem countHoles_counts_majority_holes (g : Grid) :
    countHoles g = ((Finset.univ : Finset (Fin 8 × Fin 8)).filter fun p =>
      g p.1 p.2 = false ∧ totalNeighbors p.1 p.2 < 2 * occNeighbors g p.1 p.2).card := by
  have hnodup : cellsRowMajor.Nodup := by decide
  have hcompl : ∀ p : Fin 8 × Fin 8, p ∈ cellsRowMajor := by decide
  have huniv : cellsRowMajor.toFinset = Finset.univ :=
    Finset.eq_univ_iff_forall.mpr fun p => List.mem_toFinset.mpr (hcompl p)
  have hfe : (cellsRowMajor.filter fun p => isHole g p.1 p.2) =
      cellsRowMajor.filter fun p =>
        decide (g p.1 p.2 = false ∧
          totalNeighbors p.1 p.2 < 2 * occNeighbors g p.1 p.2) := by
    refine List.filter_congr fun p _ => ?_
    by_cases hP : g p.1 p.2 = false ∧
        totalNeighbors p.1 p.2 < 2 * occNeighbors g p.1 p.2
    · rw [(isHole_iff g p.1 p.2).mpr hP, decide_eq_true hP]
    · have h1 : isHole g p.1 p.2 = false := by
        by_cases hb : isHole g p.1 p.2 = true
        · exact absurd ((isHole_iff g p.1 p.2).mp hb) hP
        · simpa using hb
      rw [h1, decide_eq_false hP]
  rw [countHoles, hfe]
  rw [← List.toFinset_card_of_nodup (hnodup.filter _), List.toFinset_filter,
    huniv]
  refine Finset.card_congr (fun p _ => p) ?_ ?_ ?_ |>.symm.symm
  · intro p hp
    rw [Finset.mem_filter] at hp ⊢
    exact ⟨hp.1, by simpa using hp.2⟩
  · intro p q _ _ h
    exact h
  · intro p hp
    rw [Finset.mem_filter] at hp
    exact ⟨p, Finset.mem_filter.mpr ⟨hp.1, by simpa using hp.2⟩, rfl⟩

/-! ### Orientation-set claim -/

/-- The seen-set loop never returns more elements than it scans. -/
theorem dedupSeen_length_le {α : Type} [DecidableEq α] :
    ∀ (l seen : List α), (dedupSeen seen l).length ≤ l.length
  | [], _ => Nat.le_refl 0
  | a :: t, seen => by
    rw [dedupSeen]
    by_cases h : a ∈ seen
    · rw [if_pos h]
      exact Nat.le_trans (dedupSeen_length_le t seen) (Nat.le_succ _)
    · rw [if_neg h]
      simpa using Nat.succ_le_succ (dedupSeen_length_le t (a :: seen))

/-- Whatever the seen-set loop keeps was not in the seen set it started
with. -/
theorem not_mem_seen_of_mem_dedupSeen {α : Type} [DecidableEq α] :
    ∀ (l seen : List α) (x : α), x ∈ dedupSeen seen l → x ∉ seen
  | [], _, x, h => by simp [dedupSeen] at h
  | a :: t, seen, x, h => by
    rw [dedupSeen] at h
    by_cases ha : a ∈ seen
    · rw [if_pos ha] at h
      exact not_mem_seen_of_mem_dedupSeen t seen x h
    · rw [if_neg ha] at h
      rcases List.mem_cons.mp h with rfl | h'
      · exact ha
      · intro hx
        exact not_mem_seen_of_mem_dedupSeen t (a :: seen) x h'
          (List.mem_cons_of_mem _ hx)

/-- The seen-set loop returns a list without duplicates. -/
theorem dedupSeen_nodup {α : Type} [DecidableEq α] :
    ∀ (l seen : List α), (dedupSeen seen l).Nodup
  | [], _ => List.nodup_nil
  | a :: t, seen => by
    rw [dedupSeen]
    by_cases ha : a ∈ seen
    · rw [if_pos ha]
      exact dedupSeen_nodup t seen
    · rw [if_neg ha]
      refine List.nodup_cons.mpr ⟨?_, dedupSeen_nodup t (a :: seen)⟩
      intro hmem
      exact not_mem_seen_of_mem_dedupSeen t (a :: seen) a hmem
        (List.mem_cons_self a _)

/-- The orientation list starts with the identity orientation. -/
theorem getAllOrientations_head (s : List (ℤ × ℤ)) :
    ∃ t, getAllOrientations s = s :: t := by
  refine ⟨dedupSeen [s] [rot90 s, rot180 s, rot270 s, flipH s, flipV s,
    rot90 (flipH s), rot180 (flipH s)], ?_⟩
  rw [getAllOrientations, dedupF, dedupSeen, if_neg (List.not_mem_nil s)]

/-- C8. For every non-empty shape (normalized, as the `BlockShape`
constructor stores it) the orientation set has between 1 and 8 elements,
contains the identity (normalized input) orientation, and contains no two
equal normalized cell lists; the 1-cell shape has exactly 1 orientation and
the 2-cell straight shape exactly 2 (horizontal then vertical). -/
theorem getAllOrientations_spec (cells : List (ℤ × ℤ)) (hne : cells ≠ []) :
    (1 ≤ (getAllOrientations (normalize cells)).length ∧
      (getAllOrientations (normalize cells)).length ≤ 8)
    ∧ normalize cells ∈ getAllOrientations (normalize cells)
    ∧ (getAllOrientations (normalize cells)).Nodup
    ∧ getAllOrientations (normalize [((0 : ℤ), (0 : ℤ))]) = [[((0 : ℤ), (0 : ℤ))]]
    ∧ getAllOrientations (normalize [((0 : ℤ), (0 : ℤ)), (0, 1)]) =
        [[((0 : ℤ), (0 : ℤ)), (0, 1)], [((0 : ℤ), (0 : ℤ)), (1, 0)]] := by
  obtain ⟨t, ht⟩ := getAllOrientations_head (normalize cells)
  refine ⟨⟨?_, ?_⟩, ?_, ?_, by decide, by decide⟩
  · rw [ht]
    simpa using Nat.succ_le_succ (Nat.zero_le _)
  · exact dedupSeen_length_le _ _
  · rw [ht]
    exact List.mem_cons_self _ _
  · exact dedupSeen_nodup _ _

/-- C8 (witness): the L-tromino `[(0,0), (1,0), (1,1)]`. -/
theorem getAllOrientations_spec_witness :
    ([((0 : ℤ), (0 : ℤ)), (1, 0), (1, 1)] ≠ ([] : List (ℤ × ℤ)))
    ∧ ((1 ≤ (getAllOrientations
          (normalize [((0 : ℤ), (0 : ℤ)), (1, 0), (1, 1)])).length ∧
        (getAllOrientations
          (normalize [((0 : ℤ), (0 : ℤ)), (1, 0), (1, 1)])).length ≤ 8)
      ∧ normalize [((0 : ℤ), (0 : ℤ)), (1, 0), (1, 1)] ∈
          getAllOrientations (normalize [((0 : ℤ), (0 : ℤ)), (1, 0), (1, 1)])
      ∧ (getAllOrientations
          (normalize [((0 : ℤ), (0 : ℤ)), (1, 0), (1, 1)])).Nodup
      ∧ getAllOrientations (normalize [((0 : ℤ), (0 : ℤ))]) =
          [[((0 : ℤ), (0 : ℤ))]]
      ∧ getAllOrientations (normalize [((0 : ℤ), (0 : ℤ)), (0, 1)]) =
          [[((0 : ℤ), (0 : ℤ)), (0, 1)], [((0 : ℤ), (0 : ℤ)), (1, 0)]]) :=
  ⟨by decide, getAllOrientations_spec [((0 : ℤ), (0 : ℤ)), (1, 0), (1, 1)]
    (by decide)⟩

/-! ### Best-move claim -/

/-- Almost-full grid: only cell (0,0) is empty. -/
def exAlmost : Grid := fun i j => !(decide (i = 0) && decide (j = 0))

/-- Python's `max` keeps the first maximum: the scanned list splits around
the returned element, everything before it scoring strictly less and
everything after it scoring no more. -/
theorem pyMaxBy_first_max (f : Move → ℚ) :
    ∀ (t : List Move) (c : Move),
      ∃ l1 l2, c :: t = l1 ++ pyMaxBy f c t :: l2
        ∧ (∀ x ∈ l1, f x < f (pyMaxBy f c t))
        ∧ (∀ x ∈ l2, f x ≤ f (pyMaxBy f c t))
  | [], c => ⟨[], [], rfl, by simp, by simp⟩
  | x :: t, c => by
    rw [pyMaxBy]
    by_cases hcx : f c < f x
    · rw [if_pos hcx]
      obtain ⟨l1, l2, hsplit, h1, h2⟩ := pyMaxBy_first_max f t x
      have hxr : f x ≤ f (pyMaxBy f x t) := by
        cases l1 with
        | nil =>
          simp only [List.nil_append] at hsplit
          rw [List.cons.injEq] at hsplit
          rw [← hsplit.1]
        | cons y l1t =>
          simp only [List.cons_append] at hsplit
          rw [List.cons.injEq] at hsplit
          exact le_of_lt (hsplit.1 ▸ h1 y (List.mem_cons_self _ _))
      refine ⟨c :: l1, l2, ?_, ?_, h2⟩
      · rw [List.cons_append, ← hsplit]
      · intro z hz
        rcases List.mem_cons.mp hz with rfl | hz'
        · exact lt_of_lt_of_le hcx hxr
        · exact h1 z hz'
    · rw [if_neg hcx]
      have hxc : f x ≤ f c := le_of_not_lt hcx
      obtain ⟨l1, l2, hsplit, h1, h2⟩ := pyMaxBy_first_max f t c
      cases l1 with
      | nil =>
        simp only [List.nil_append] at hsplit
        rw [List.cons.injEq] at hsplit
        refine ⟨[], x :: t, by simp [← hsplit.1], by simp, ?_⟩
        intro z hz
        rcases List.mem_cons.mp hz with rfl | hz'
        · rw [← hsplit.1]
          exact hxc
        · rw [hsplit.2] at hz'
          exact h2 z hz'
      | cons y l1t =>
        simp only [List.cons_append] at hsplit
        rw [List.cons.injEq] at hsplit
        have hcr : f c < f (pyMaxBy f c t) :=
          hsplit.1 ▸ h1 y (List.mem_cons_self _ _)
        refine ⟨c :: x :: l1t, l2, ?_, ?_, h2⟩
        · rw [List.cons_append, List.cons_append, ← hsplit.2]
        · intro z hz
          rcases List.mem_cons.mp hz with rfl | hz'
          · exact hcr
          rcases List.mem_cons.mp hz' with rfl | hz''
          · exact lt_of_le_of_lt hxc hcr
          · exact h1 z (List.mem_cons_of_mem _ hz'')

/-- C4. `find_best_move` returns `None` exactly when the full enumeration is
empty; otherwise it returns the first candidate, in enumeration order (piece
index ascending, then orientation order, then anchors row-major — the order
`allMovesList` is built in), achieving the maximum score: every earlier
candidate scores strictly less and every later one scores no more. -/
theorem findBestMove_spec (g : Grid) (pieces : List (List (ℤ × ℤ))) :
    (findBestMove g pieces = none ↔ allMovesList g pieces = [])
    ∧ ∀ m, findBestMove g pieces = some m →
        ∃ l1 l2, allMovesList g pieces = l1 ++ m :: l2
          ∧ (∀ x ∈ l1, x.score < m.score)
          ∧ (∀ x ∈ l2, x.score ≤ m.score) := by
  cases h : allMovesList g pieces with
  | nil =>
    refine ⟨by simp [findBestMove, h], fun m hm => ?_⟩
    rw [findBestMove, h] at hm
    exact absurd hm (by simp)
  | cons a t =>
    constructor
    · rw [findBestMove, h]
      simp
    · intro m hm
      rw [findBestMove, h, Option.some.injEq] at hm
      obtain ⟨l1, l2, hsplit, h1, h2⟩ := pyMaxBy_first_max (fun m => m.score) t a
      exact ⟨l1, l2, by rw [← hm]; exact hsplit, by rw [← hm]; exact h1,
        by rw [← hm]; exact h2⟩

/-- The single candidate on `exAlmost` for the 1-cell piece, with its fields
as the search computes them. -/
def wMove : Move :=
  ⟨0, ((0 : ℤ), (0 : ℤ)), [((0 : ℤ), (0 : ℤ))],
    evaluatePosition
      (clearLines (placePiece exAlmost [((0 : ℤ), (0 : ℤ))] ((0 : ℤ), (0 : ℤ)))).1
      (clearLines (placePiece exAlmost [((0 : ℤ), (0 : ℤ))] ((0 : ℤ), (0 : ℤ)))).2,
    (clearLines (placePiece exAlmost [((0 : ℤ), (0 : ℤ))] ((0 : ℤ), (0 : ℤ)))).2,
    (clearLines (placePiece exAlmost [((0 : ℤ), (0 : ℤ))] ((0 : ℤ), (0 : ℤ)))).1⟩

/-- On the grid with only (0,0) empty, the 1-cell piece admits exactly one
candidate. -/
theorem allMoves_exAlmost :
    allMovesList exAlmost [[((0 : ℤ), (0 : ℤ))]] = [wMove] := rfl

/-- `find_best_move` returns that single candidate. -/
theorem findBest_exAlmost :
    findBestMove exAlmost [[((0 : ℤ), (0 : ℤ))]] = some wMove := rfl

/-- C4 (witness): on the grid with only (0,0) empty and the single-cell
piece there is exactly one candidate — anchor (0,0) — and `find_best_move`
returns it as the first maximum of the enumeration. -/
theorem findBestMove_spec_witness :
    findBestMove exAlmost [[((0 : ℤ), (0 : ℤ))]] = some wMove
    ∧ ∃ l1 l2, allMovesList exAlmost [[((0 : ℤ), (0 : ℤ))]] = l1 ++ wMove :: l2
        ∧ (∀ x ∈ l1, x.score < wMove.score)
        ∧ (∀ x ∈ l2, x.score ≤ wMove.score) :=
  ⟨rfl, (findBestMove_spec exAlmost [[((0 : ℤ), (0 : ℤ))]]).2 wMove rfl⟩

/-! ### Top-N claim -/

/-- Inserting into a sorted-by-descending-score list places an element
before every equal-scored one, so the subsequence at any fixed score value
gains the new element at the front exactly when it has that score. -/
theorem filter_score_orderedInsert (q : ℚ) (a : Move) :
    ∀ l : List Move,
      (List.orderedInsert moveGE a l).filter (fun x => decide (x.score = q)) =
        if a.score = q
        then a :: l.filter (fun x => decide (x.score = q))
        else l.filter (fun x => decide (x.score = q))
  | [] => by
    simp only [List.orderedInsert, List.filter]
    by_cases ha : a.score = q
    · rw [if_pos ha, decide_eq_true ha]
    · rw [if_neg ha, decide_eq_false ha]
  | b :: l => by
    by_cases hab : moveGE a b
    · rw [List.orderedInsert_of_le _ _ hab]
      rw [List.filter_cons]
      by_cases ha : a.score = q
      · rw [if_pos ha, decide_eq_true ha]
        simp
      · rw [if_neg ha, decide_eq_false ha]
        simp
    · have hba : a.score < b.score := lt_of_not_le hab
      have hoi : List.orderedInsert moveGE a (b :: l) =
          b :: List.orderedInsert moveGE a l := by
        simp only [List.orderedInsert, if_neg hab]
      rw [hoi, List.filter_cons, filter_score_orderedInsert q a l]
      by_cases hb : b.score = q
      · have ha : ¬a.score = q := fun hq => absurd (hq ▸ hb ▸ hba) (lt_irrefl _)
        rw [if_neg ha, decide_eq_true hb, if_neg ha, List.filter_cons,
          decide_eq_true hb]
      · rw [decide_eq_false hb, List.filter_cons, decide_eq_false hb]
        by_cases ha : a.score = q
        · rw [if_pos ha, if_pos ha]
          simp
        · rw [if_neg ha, if_neg ha]

/-- Insertion sort by descending score is stable: the subsequence of moves
at any fixed score value is unchanged. -/
theorem filter_score_insertionSort (q : ℚ) :
    ∀ l : List Move,
      (l.insertionSort moveGE).filter (fun x => decide (x.score = q)) =
        l.filter (fun x => decide (x.score = q))
  | [] => rfl
  | a :: l => by
    show (List.orderedInsert moveGE a (l.insertionSort moveGE)).filter _ = _
    rw [filter_score_orderedInsert q a, filter_score_insertionSort q l,
      List.filter_cons]
    by_cases ha : a.score = q
    · rw [if_pos ha, decide_eq_true ha]
      simp
    · rw [if_neg ha, decide_eq_false ha]
      simp

/-- C6. `get_top_moves(n)` is the full enumeration, sorted by score in
non-increasing order by a stable sort (for every score value, the moves at
that score keep their enumeration order), truncated to `min n`
total-candidates: the output is a prefix of such a sorted permutation, is
itself sorted, and has exactly that length. -/
theorem getTopMoves_spec (g : Grid) (pieces : List (List (ℤ × ℤ))) (n : ℕ) :
    ∃ w : List Move,
      getTopMoves g pieces n = w.take n
      ∧ w.Perm (allMovesList g pieces)
      ∧ w.Sorted moveGE
      ∧ (∀ q : ℚ, w.filter (fun x => decide (x.score = q)) =
          (allMovesList g pieces).filter (fun x => decide (x.score = q)))
      ∧ (getTopMoves g pieces n).Sorted moveGE
      ∧ (getTopMoves g pieces n).length = min n (allMovesList g pieces).length := by
  refine ⟨(allMovesList g pieces).insertionSort moveGE, rfl,
    List.perm_insertionSort moveGE _, List.sorted_insertionSort moveGE _,
    fun q => filter_score_insertionSort q _, ?_, ?_⟩
  · exact List.Pairwise.sublist (List.take_sublist _ _)
      (List.sorted_insertionSort moveGE _)
  · rw [getTopMoves, List.length_take,
      (List.perm_insertionSort moveGE (allMovesList g pieces)).length_eq]

end BlockBlast
